import Mathlib

/-!
Verification development for the bond NDK agent library.

Strings are modelled as lists of characters (`List Char`); all inputs in
the claims are ASCII, where Go byte indexing, rune iteration and this
model coincide.
-/

set_option maxHeartbeats 1000000

/-- Substitution of a single character, the effect of replacing the
one-character string `o` by the one-character string `n` at a position
that the ignore-keys regex does not protect. -/
def subChar (o n c : Char) : Char := if c = o then n else c

/-- Scanner for the lazy bracket alternative of the ignore-keys regex.
Starting right after an opening bracket, it returns the shortest prefix
up to a closing bracket, together with the remainder after that bracket.
The dot of the regex does not match a newline, so the search fails if a
newline appears before any closing bracket. -/
def splitBracket : List Char → Option (List Char × List Char)
  | [] => none
  | c :: rest =>
    if c = ']' then some ([], rest)
    else if c = '\n' then none
    else (splitBracket rest).map (fun pr => (c :: pr.1, pr.2))

/-- Fuel-indexed scanner implementing the regex replacement of
replaceAllIgnoreKeys from path.go: the pattern is the bracket block
alternative first, then the single character `o`; a matched bracket
block is copied verbatim, a matched `o` becomes `n`, other characters
are copied.  The fuel only needs to cover the length of the input. -/
def riksGo (o n : Char) : Nat → List Char → List Char
  | 0, l => l
  | _ + 1, [] => []
  | fuel + 1, c :: rest =>
    if c = '[' then
      match splitBracket rest with
      | some (pre, post) => '[' :: (pre ++ (']' :: riksGo o n fuel post))
      | none => '[' :: riksGo o n fuel rest
    else if c = o then n :: riksGo o n fuel rest
    else c :: riksGo o n fuel rest

/-- Embedding of replaceAllIgnoreKeys from path.go.  The Go function
takes the old and new fragments as strings; every call site in the
repository passes one-character strings, so the embedding takes
characters. -/
def replaceAllIgnoreKeys (path : List Char) (o n : Char) : List Char :=
  riksGo o n path.length path

/-- Character expansion performed by the final loop of
convertXPathToJSPath in path.go: brackets and equals become the brace
predicate tokens, all other characters are copied. -/
def xpCharExpand (c : Char) : List Char :=
  if c = '[' then ['\x7b', '.']
  else if c = ']' then ['"', '\x7d']
  else if c = '=' then ['=', '=', '"']
  else [c]

/-- Embedding of convertXPathToJSPath from path.go: empty input maps to
empty output; otherwise path separators become member separators and
hyphens become underscores (both skipping bracketed keys), then the
bracket predicates are rewritten to brace notation. -/
def convertXPathToJSPath (xp : List Char) : List Char :=
  if xp = [] then []
  else
    let p := replaceAllIgnoreKeys xp '/' '.'
    let p := replaceAllIgnoreKeys p '-' '_'
    p.flatMap xpCharExpand

/-- Embedding of the two-characters-at-a-time loop of
convertJSPathToXPath: the window over positions i and i+1 recognises
the three tokens, the token for double equals also skips the following
quote, and in the default case the second character is written only at
the second-to-last position. -/
def jsLoopGo : Nat → List Char → List Char
  | f + 1, a :: b :: rest =>
    if a = '\x7b' ∧ b = '.' then '[' :: jsLoopGo f rest
    else if a = '"' ∧ b = '\x7d' then ']' :: jsLoopGo f rest
    else if a = '=' ∧ b = '=' then
      match rest with
      | [] => ['=']
      | _ :: rest2 => '=' :: jsLoopGo f rest2
    else if rest = [] then [a, b]
    else a :: jsLoopGo f (b :: rest)
  | _, _ => []

/-- The loop over the whole input: the fuel is the input length, which
the loop body never exhausts before fewer than two characters
remain. -/
def jsLoop (l : List Char) : List Char := jsLoopGo l.length l

/-- Embedding of convertJSPathToXPath from the JSPath conversion file:
empty input maps to empty output; otherwise underscores become hyphens
(the input has no square brackets to protect at this stage, so the
regex degenerates to plain substitution), the brace predicates are
rewritten to bracket notation by the two-character loop, and member
separators become path separators skipping the restored bracketed
keys. -/
def convertJSPathToXPath (jsPath : List Char) : List Char :=
  if jsPath = [] then []
  else
    let p := replaceAllIgnoreKeys jsPath '_' '-'
    replaceAllIgnoreKeys (jsLoop p) '.' '/'

/-- String-level wrapper of convertJSPathToXPath, used where the source
converts notification path fields. -/
def convertJSPathToXPathS (s : String) : String :=
  String.mk (convertJSPathToXPath s.data)

/-- String-level wrapper of convertXPathToJSPath, used where the source
converts state paths. -/
def convertXPathToJSPathS (s : String) : String :=
  String.mk (convertXPathToJSPath s.data)

/-! ## Grammar of hierarchical paths

The claims quantify over hierarchical (XPath) paths with bracketed key
predicates and over internal (JSPath) paths with brace predicates.  A
path is a sequence of segments, each a name followed by zero or more
key predicates. -/

/-- Bracketed key predicate of a path segment. -/
structure KeyPred where
  key : List Char
  val : List Char
deriving DecidableEq

/-- Segment of a hierarchical path: a name and its key predicates. -/
structure PathSeg where
  name : List Char
  preds : List KeyPred
deriving DecidableEq

/-- Rendering of one key predicate in XPath notation. -/
def renderPred (p : KeyPred) : List Char :=
  '[' :: (p.key ++ '=' :: (p.val ++ [']']))

/-- Rendering of a path with an arbitrary segment separator; the XPath
form uses a slash, the intermediate forms of the conversion use a
dot. -/
def renderSep (sep : Char) (segs : List PathSeg) : List Char :=
  segs.flatMap (fun s => sep :: (s.name ++ s.preds.flatMap renderPred))

/-- Rendering of a hierarchical path in XPath notation. -/
def renderXPath (segs : List PathSeg) : List Char := renderSep '/' segs

/-- Rendering of one key predicate in JSPath notation. -/
def renderJSPred (p : KeyPred) : List Char :=
  '\x7b' :: '.' :: (p.key ++ '=' :: '=' :: '"' :: (p.val ++ ['"', '\x7d']))

/-- Rendering of an internal path in JSPath notation. -/
def renderJSPath (segs : List PathSeg) : List Char :=
  segs.flatMap (fun s => '.' :: (s.name ++ s.preds.flatMap renderJSPred))

/-- Characters allowed in a key name or key value: anything except the
predicate delimiters, the underscore (substituted by the reverse
conversion), the brace and quote (token characters of the JSPath
notation) and the newline. -/
def predChar (c : Char) : Bool :=
  !(c = '[' || c = ']' || c = '=' || c = '_' || c = '\x7b' || c = '"' || c = '\n')

/-- Characters allowed in a segment name: predicate characters that are
not the path or member separator. -/
def nameChar (c : Char) : Bool :=
  predChar c && !(c = '/' || c = '.')

/-- Wellformedness of a key predicate. -/
def predOK (p : KeyPred) : Bool :=
  p.key.all predChar && p.val.all predChar

/-- Wellformedness of a segment: nonempty name over name characters,
wellformed predicates. -/
def segOK (s : PathSeg) : Bool :=
  !s.name.isEmpty && s.name.all nameChar && s.preds.all predOK

/-- Wellformedness of a hierarchical path. -/
def pathOK (segs : List PathSeg) : Bool := segs.all segOK

/-- Characters allowed in a key name or value of an internal path:
like predicate characters but with the underscore allowed. -/
def jsPredChar (c : Char) : Bool :=
  !(c = '[' || c = ']' || c = '=' || c = '\x7b' || c = '"' || c = '\n')

/-- Characters allowed in a segment name of an internal path. -/
def jsNameChar (c : Char) : Bool :=
  jsPredChar c && !(c = '/' || c = '.')

/-- Wellformedness of a key predicate of an internal path. -/
def jsPredOK (p : KeyPred) : Bool :=
  p.key.all jsPredChar && p.val.all jsPredChar

/-- Wellformedness of a segment of an internal path. -/
def jsSegOK (s : PathSeg) : Bool :=
  !s.name.isEmpty && s.name.all jsNameChar && s.preds.all jsPredOK

/-- Wellformedness of an internal path. -/
def jsPathOK (segs : List PathSeg) : Bool := segs.all jsSegOK

/-- Mapping of a character substitution over the segment names only. -/
def mapNames (f : Char → Char) (segs : List PathSeg) : List PathSeg :=
  segs.map (fun s => ⟨s.name.map f, s.preds⟩)

/-- Mapping of a character substitution over names, keys and values. -/
def mapSegAll (f : Char → Char) (s : PathSeg) : PathSeg :=
  ⟨s.name.map f, s.preds.map (fun p => ⟨p.key.map f, p.val.map f⟩)⟩

/-! ## Configuration notification handling

Model of config_notification.go.  The gRPC envelope fields that the
handler reads are carried in a record; the outcome of the standard
library JSON unmarshal of the data into the CommitSeq struct is
abstracted as a parse result (a Go unmarshal that succeeds leaves the
field at its zero value 0 when the JSON has no commit_seq member). -/

/-- Outcome of unmarshalling a JSON string into the CommitSeq struct:
either the unmarshal returns an error, or it succeeds and the
commit_seq field holds the given integer. -/
inductive CommitSeqParse where
  | malformed : CommitSeqParse
  | ok : Int → CommitSeqParse
deriving DecidableEq

/-- Inbound config notification envelope (ndk.ConfigNotification):
operation, key paths, key values, JSON data and the abstracted parse
outcome of that JSON for the CommitSeq struct. -/
structure ConfigNotificationMsg where
  op : String
  jsPath : String
  jsPathWithKeys : String
  keys : List String
  json : String
  jsonCommitSeq : CommitSeqParse
deriving DecidableEq

/-- Outbound config notification contents (bond.ConfigNotification). -/
structure ConfigNotification where
  Op : String
  Path : String
  PathWithoutKeys : String
  Keys : List String
  Json : String
deriving DecidableEq

/-- Key path of the terminal commit marker. -/
def commitEndKeyPath : String := ".commit.end"

/-- Embedding of isCommitSeqZero: an unmarshal error is logged and
reported as not zero, otherwise the commit_seq field is compared with
zero. -/
def isCommitSeqZero (p : CommitSeqParse) : Bool :=
  match p with
  | .malformed => false
  | .ok n => n = 0

/-- Embedding of parseConfig: operation, JSON and keys are copied, the
path is the key path with keys, the path without keys is the plain key
path; the commit end path is not converted, any other notification has
both paths converted to XPath notation. -/
def parseConfig (n : ConfigNotificationMsg) : ConfigNotification :=
  let cfg : ConfigNotification :=
    { Op := n.op, Json := n.json, Keys := n.keys
      Path := n.jsPathWithKeys, PathWithoutKeys := n.jsPath }
  if cfg.Path = commitEndKeyPath then cfg
  else { cfg with
          Path := convertJSPathToXPathS cfg.Path
          PathWithoutKeys := convertJSPathToXPathS cfg.PathWithoutKeys }

/-- Observable effect of handling one batch of config notifications:
the out-of-band full config fetch, the signal on the
FullConfigReceived channel, or a parsed notification sent on the
Config channel. -/
inductive ConfigEffect where
  | fullConfigFetch : ConfigEffect
  | fullConfigReceivedSignal : ConfigEffect
  | streamConfigOut : ConfigNotification → ConfigEffect
deriving DecidableEq

/-- Embedding of handleConfigNotifications over one batch: an absent
config payload is logged and skipped; in aggregate mode a commit end
notification with nonzero commit sequence triggers the full config
fetch followed by the received signal; in streaming mode every
notification is parsed and sent on the Config channel. -/
def handleConfigNotifications (streamConfig : Bool)
    (notifs : List (Option ConfigNotificationMsg)) : List ConfigEffect :=
  notifs.flatMap (fun o =>
    match o with
    | none => []
    | some n =>
      if !streamConfig then
        if n.jsPath = commitEndKeyPath ∧ ¬ (isCommitSeqZero n.jsonCommitSeq = true) then
          [.fullConfigFetch, .fullConfigReceivedSignal]
        else []
      else [.streamConfigOut (parseConfig n)])

/-! ## State management

Model of state.go.  The tracked path set (a Go map used as a set) is a
duplicate-free list; the telemetry service stubs are oracles giving
the combined success of the RPC (no transport error and a success
status).  Methods that mutate the agent return the updated agent, so
an error result leaves the caller's agent untouched, matching a Go
method that returns before mutating the receiver. -/

/-- Errors of the state interface, each wrapping the sentinel error of
the source and the formatted argument. -/
inductive StateErr where
  | stateDeleteFailed : String → StateErr
  | stateAddOrUpdateFailed : String → String → StateErr
deriving DecidableEq

/-- Agent state visible to the state interface. -/
structure StateAgent where
  appRootPath : String
  paths : List String
  telemetryDeleteOk : String → Bool
  telemetryUpdateOk : String → String → Bool

/-- Insertion into the tracked path set with Go map semantics. -/
def insertPath (paths : List String) (p : String) : List String :=
  if p ∈ paths then paths else paths ++ [p]

/-- Shared prologue of UpdateState and DeleteState: an empty path means
the application root path with all slashes replaced by dots (a plain
ReplaceAll, no key protection), any other path is converted to
JSPath. -/
def jsPathOf (a : StateAgent) (path : String) : String :=
  if path = "" then String.mk (a.appRootPath.data.map (subChar '/' '.'))
  else convertXPathToJSPathS path

/-- Embedding of DeleteState: a path never added is rejected before any
RPC; otherwise the telemetry delete runs and only on success is the
path removed from the tracked path set. -/
def DeleteState (a : StateAgent) (path : String) : Except StateErr StateAgent :=
  let jsPath := jsPathOf a path
  if path ∈ a.paths then
    if a.telemetryDeleteOk jsPath then
      .ok { a with paths := a.paths.filter (fun q => !(q = path)) }
    else .error (.stateDeleteFailed jsPath)
  else .error (.stateDeleteFailed path)

/-- Embedding of UpdateState: the telemetry add-or-update runs and only
on success is the path added to the tracked path set. -/
def UpdateState (a : StateAgent) (path data : String) : Except StateErr StateAgent :=
  let jsPath := jsPathOf a path
  if a.telemetryUpdateOk jsPath data then
    .ok { a with paths := insertPath a.paths path }
  else .error (.stateAddOrUpdateFailed jsPath data)

/-- Iteration of DeleteAllState over the tracked paths; the range is
over the snapshot of keys, and after a full pass the cache is
reinitialised to the empty map.  Go map iteration order is
unspecified; the list order of the model stands for one such order. -/
def deleteAllGo (a : StateAgent) : List String → Except StateErr StateAgent
  | [] => .ok { a with paths := [] }
  | p :: rest =>
    match DeleteState a p with
    | .ok a2 => deleteAllGo a2 rest
    | .error e => .error e

/-- Embedding of DeleteAllState: every tracked path is deleted through
DeleteState, stopping at the first error. -/
def DeleteAllState (a : StateAgent) : Except StateErr StateAgent :=
  deleteAllGo a a.paths

/-! ## Agent construction and option validation

Model of the agent snapshot with option validation: NewAgent collects
the errors of all option callbacks, appends the validation errors and
returns either a nil agent with a nonempty error list or the built
agent with an empty list.  Injected values whose content the claims
never inspect (logger, context) are recorded as presence flags. -/

/-- Errors produced during agent construction. -/
inductive BondErr where
  | ackCfgAndNotStreamCfg : BondErr
  | ackCfgAndAutoCfgState : BondErr
  | contextNil : BondErr
  | keepAliveZero : BondErr
deriving DecidableEq

/-- Option constructors of the package, with the data each callback
inspects.  Durations are carried in nanoseconds. -/
inductive AgentOption where
  | withLogger : AgentOption
  | withContext : Bool → Bool → AgentOption
  | withAppRootPath : String → AgentOption
  | withStreamConfig : AgentOption
  | withKeepAlive : Int → Int → AgentOption
  | withConfigAcknowledge : AgentOption
  | withAutoUpdateConfigState : AgentOption
  | withCaching : AgentOption
deriving DecidableEq

/-- Agent fields touched by construction, options and validation.  The
notification channels are recorded by an initialisation flag. -/
structure AgentModel where
  name : String
  retryTimeout : Int
  paths : List String
  appRootPath : String
  streamConfig : Bool
  configAck : Bool
  autoCfgState : Bool
  cacheNotifications : Bool
  keepAliveConfig : Option (Int × Int)
  loggerSet : Bool
  ctxSet : Bool
  notificationsInit : Bool
deriving DecidableEq

/-- Default retry timeout of five seconds, in nanoseconds. -/
def defaultRetryTimeout : Int := 5 * 1000000000

/-- Embedding of one option callback.  WithContext rejects a nil
context or cancel function before mutating; WithKeepAlive rejects
interval and threshold both zero before mutating; every other callback
sets its field and succeeds. -/
def applyOption (a : AgentModel) : AgentOption → Except BondErr AgentModel
  | .withLogger => .ok { a with loggerSet := true }
  | .withContext ctxOk cancelOk =>
    if ctxOk ∧ cancelOk then .ok { a with ctxSet := true } else .error .contextNil
  | .withAppRootPath p => .ok { a with appRootPath := p }
  | .withStreamConfig => .ok { a with streamConfig := true }
  | .withKeepAlive interval threshold =>
    if interval = 0 ∧ threshold = 0 then .error .keepAliveZero
    else .ok { a with keepAliveConfig := some (interval, threshold) }
  | .withConfigAcknowledge => .ok { a with configAck := true }
  | .withAutoUpdateConfigState => .ok { a with autoCfgState := true }
  | .withCaching => .ok { a with cacheNotifications := true }

/-- Embedding of validateOptions: acknowledgement without streaming is
one error, otherwise acknowledgement with automatic config state is
the other; the two branches form one if/else-if chain. -/
def validateOptions (a : AgentModel) : List BondErr :=
  if a.configAck ∧ ¬ a.streamConfig then [.ackCfgAndNotStreamCfg]
  else if a.configAck ∧ a.autoCfgState then [.ackCfgAndAutoCfgState]
  else []

/-- Agent literal built at the start of NewAgent: default retry
timeout, fresh empty path map, freshly allocated notification
channels. -/
def initialAgent (name : String) : AgentModel :=
  { name := name
    retryTimeout := defaultRetryTimeout
    paths := []
    appRootPath := ""
    streamConfig := false
    configAck := false
    autoCfgState := false
    cacheNotifications := false
    keepAliveConfig := none
    loggerSet := false
    ctxSet := false
    notificationsInit := true }

/-- One iteration of the option loop of NewAgent: a successful
callback replaces the agent, a failing callback keeps the agent and
appends the error. -/
def newAgentStep (st : AgentModel × List BondErr) (opt : AgentOption) :
    AgentModel × List BondErr :=
  match applyOption st.1 opt with
  | .ok a2 => (a2, st.2)
  | .error e => (st.1, st.2 ++ [e])

/-- Embedding of NewAgent: all option callbacks run in order with their
errors accumulated, the validation errors are appended, and a nonempty
error list yields a nil agent. -/
def NewAgent (name : String) (opts : List AgentOption) :
    Option AgentModel × List BondErr :=
  let st := opts.foldl newAgentStep (initialAgent name, [])
  let errs := st.2 ++ validateOptions st.1
  if errs = [] then (some st.1, errs) else (none, errs)

/-! ## Keepalive loop

Model of the keepAlive loop: the input list is the sequence of
outcomes of the keepalive RPC at successive ticker firings, assuming
the surrounding context is not cancelled (the claim sets cancellation
aside).  A transport error leaves the counter untouched and retries; a
failed status increments the counter and stops the loop for good once
it reaches the threshold; any other status resets the counter. -/

/-- Outcome of one keepalive probe. -/
inductive KeepAliveResp where
  | rpcError : KeepAliveResp
  | failed : KeepAliveResp
  | success : KeepAliveResp
deriving DecidableEq

/-- Counter update of the keepAlive loop for one probe outcome. -/
def keepAliveCounterStep (c : Int) : KeepAliveResp → Int
  | .rpcError => c
  | .failed => c + 1
  | .success => 0

/-- Number of probes the keepAlive loop sends from counter state `c`
when the successive probe outcomes are `rs`: each list element
consumed is one RPC sent, and the loop returns permanently when a
failed status pushes the counter to the threshold. -/
def keepAliveRun (threshold c : Int) : List KeepAliveResp → Nat
  | [] => 0
  | r :: rest =>
    match r with
    | .rpcError => 1 + keepAliveRun threshold c rest
    | .failed =>
      if threshold ≤ c + 1 then 1
      else 1 + keepAliveRun threshold (c + 1) rest
    | .success => 1 + keepAliveRun threshold 0 rest

/-- Failure counter after a sequence of probe outcomes. -/
def kaCounter (rs : List KeepAliveResp) : Int :=
  rs.foldl keepAliveCounterStep 0

/-- Two-character window recognised as a token by the reverse
conversion loop. -/
def isTok (a b : Char) : Bool :=
  (a = '\x7b' && b = '.') || (a = '"' && b = '\x7d') || (a = '=' && b = '=')

/-- Check that no adjacent pair of the list forms a token window. -/
def noTokRun : List Char → Bool
  | a :: b :: rest => !isTok a b && noTokRun (b :: rest)
  | _ => true

/-! ## Lemmas on the ignore-keys scanner -/

theorem riksGo_nil (o n : Char) (f : Nat) : riksGo o n f [] = [] := by
  cases f <;> rfl

theorem splitBracket_append (pre rest : List Char)
    (h : ∀ c ∈ pre, c ≠ ']' ∧ c ≠ '\n') :
    splitBracket (pre ++ ']' :: rest) = some (pre, rest) := by
  induction pre with
  | nil => simp [splitBracket]
  | cons a t ih =>
    have ha := h a (by simp)
    simp only [List.cons_append, splitBracket, if_neg ha.1, if_neg ha.2]
    rw [List.append_eq, ih (fun c hc => h c (by simp [hc]))]
    rfl

theorem splitBracket_eq_some (l pre post : List Char)
    (h : splitBracket l = some (pre, post)) : l = pre ++ ']' :: post := by
  induction l generalizing pre with
  | nil => simp [splitBracket] at h
  | cons a t ih =>
    by_cases ha : a = ']'
    · simp [splitBracket, ha] at h
      simp [ha, h.1, h.2]
    · by_cases hn : a = '\n'
      · simp [splitBracket, ha, hn] at h
      · simp only [splitBracket, if_neg ha, if_neg hn, Option.map_eq_some'] at h
        obtain ⟨pr, hpr, hco⟩ := h
        obtain ⟨h1, h2⟩ := Prod.mk.injEq .. ▸ hco
        subst h2
        rcases pre with _ | ⟨b, pre⟩
        · simp at h1
        · simp at h1
          obtain ⟨hb, hpre⟩ := h1
          subst hb hpre
          simp [ih pr.1 hpr]

theorem riksGo_cons_free (o n : Char) (f : Nat) (c : Char) (rest : List Char)
    (hc : c ≠ '[') :
    riksGo o n (f + 1) (c :: rest)
      = subChar o n c :: riksGo o n f rest := by
  simp only [riksGo, if_neg hc, subChar]
  by_cases hco : c = o
  · rw [if_pos hco, if_pos hco]
  · rw [if_neg hco, if_neg hco]

theorem riksGo_cons_bracket_some (o n : Char) (f : Nat) (rest pre post : List Char)
    (hsb : splitBracket rest = some (pre, post)) :
    riksGo o n (f + 1) ('[' :: rest)
      = '[' :: (pre ++ ']' :: riksGo o n f post) := by
  simp only [riksGo, if_pos rfl, hsb]
  simp

theorem riksGo_cons_bracket_none (o n : Char) (f : Nat) (rest : List Char)
    (hsb : splitBracket rest = none) :
    riksGo o n (f + 1) ('[' :: rest) = '[' :: riksGo o n f rest := by
  simp only [riksGo, if_pos rfl, hsb]
  simp

theorem riksGo_fuel_congr (o n : Char) :
    ∀ (f1 f2 : Nat) (l : List Char), l.length ≤ f1 → l.length ≤ f2 →
      riksGo o n f1 l = riksGo o n f2 l := by
  intro f1
  induction f1 with
  | zero =>
    intro f2 l h1 _
    rcases l with _ | ⟨c, rest⟩
    · simp [riksGo_nil]
    · simp at h1
  | succ g ih =>
    intro f2 l h1 h2
    rcases l with _ | ⟨c, rest⟩
    · simp [riksGo_nil]
    · rcases f2 with _ | f2p
      · simp at h2
      · simp only [List.length_cons, Nat.add_le_add_iff_right] at h1 h2
        by_cases hc : c = '['
        · subst hc
          cases hsb : splitBracket rest with
          | none =>
            rw [riksGo_cons_bracket_none o n g rest hsb,
              riksGo_cons_bracket_none o n f2p rest hsb, ih f2p rest h1 h2]
          | some pr =>
            obtain ⟨pre, post⟩ := pr
            have hrest := splitBracket_eq_some rest pre post hsb
            have hlen : post.length < rest.length := by
              subst hrest; simp; omega
            rw [riksGo_cons_bracket_some o n g rest pre post hsb,
              riksGo_cons_bracket_some o n f2p rest pre post hsb,
              ih f2p post (by omega) (by omega)]
        · rw [riksGo_cons_free o n g c rest hc, riksGo_cons_free o n f2p c rest hc,
            ih f2p rest h1 h2]

theorem riksGo_append_free (o n : Char) (l1 l2 : List Char) (f : Nat)
    (h : '[' ∉ l1) :
    riksGo o n (l1.length + f) (l1 ++ l2)
      = l1.map (subChar o n) ++ riksGo o n f l2 := by
  induction l1 with
  | nil => simp
  | cons c t ih =>
    have hc : c ≠ '[' := fun e => h (by simp [e])
    have ht : '[' ∉ t := fun m => h (List.mem_cons_of_mem _ m)
    have hl : (c :: t).length + f = (t.length + f) + 1 := by
      simp [List.length_cons]; omega
    rw [hl, List.cons_append, riksGo_cons_free o n (t.length + f) c (t ++ l2) hc,
      ih ht, List.map_cons, List.cons_append]

theorem RIK_append_free (o n : Char) (l1 l2 : List Char) (h : '[' ∉ l1) :
    replaceAllIgnoreKeys (l1 ++ l2) o n
      = l1.map (subChar o n) ++ replaceAllIgnoreKeys l2 o n := by
  unfold replaceAllIgnoreKeys
  rw [show (l1 ++ l2).length = l1.length + l2.length by simp]
  exact riksGo_append_free o n l1 l2 l2.length h

theorem RIK_map_free (o n : Char) (l : List Char) (h : '[' ∉ l) :
    replaceAllIgnoreKeys l o n = l.map (subChar o n) := by
  have e := RIK_append_free o n l [] h
  simpa [replaceAllIgnoreKeys, riksGo_nil] using e

theorem RIK_bracket (o n : Char) (pre rest : List Char)
    (h : ∀ c ∈ pre, c ≠ ']' ∧ c ≠ '\n') :
    replaceAllIgnoreKeys ('[' :: (pre ++ ']' :: rest)) o n
      = '[' :: (pre ++ ']' :: replaceAllIgnoreKeys rest o n) := by
  unfold replaceAllIgnoreKeys
  have hlen : ('[' :: (pre ++ ']' :: rest)).length
      = (pre.length + 1 + rest.length) + 1 := by simp; omega
  rw [hlen, riksGo_cons_bracket_some o n (pre.length + 1 + rest.length)
    (pre ++ ']' :: rest) pre rest (splitBracket_append pre rest h),
    riksGo_fuel_congr o n (pre.length + 1 + rest.length) rest.length rest
      (by omega) (Nat.le_refl _)]

theorem RIK_predChunk (o n : Char) (preds : List KeyPred) (rest : List Char)
    (h : ∀ p ∈ preds, (∀ c ∈ p.key, c ≠ ']' ∧ c ≠ '\n')
      ∧ (∀ c ∈ p.val, c ≠ ']' ∧ c ≠ '\n')) :
    replaceAllIgnoreKeys (preds.flatMap renderPred ++ rest) o n
      = preds.flatMap renderPred ++ replaceAllIgnoreKeys rest o n := by
  induction preds with
  | nil => simp
  | cons p ps ih =>
    have hp := h p (by simp)
    have hprefix : ∀ c ∈ p.key ++ '=' :: p.val, c ≠ ']' ∧ c ≠ '\n' := by
      intro c hc
      rcases List.mem_append.mp hc with h1 | h2
      · exact hp.1 c h1
      · rcases List.mem_cons.mp h2 with h3 | h4
        · subst h3; exact ⟨by decide, by decide⟩
        · exact hp.2 c h4
    have hshape : (p :: ps).flatMap renderPred ++ rest
        = '[' :: ((p.key ++ '=' :: p.val) ++ ']' :: (ps.flatMap renderPred ++ rest)) := by
      simp [renderPred, List.append_assoc]
    rw [hshape, RIK_bracket o n _ _ hprefix,
      ih (fun q m => h q (by simp [m]))]
    simp [renderPred, List.append_assoc]

theorem RIK_renderSep (o n sep : Char) (segs : List PathSeg)
    (hsep : sep ≠ '[')
    (hname : ∀ s ∈ segs, ∀ c ∈ s.name, c ≠ '[')
    (hpred : ∀ s ∈ segs, ∀ p ∈ s.preds,
      (∀ c ∈ p.key, c ≠ ']' ∧ c ≠ '\n') ∧ (∀ c ∈ p.val, c ≠ ']' ∧ c ≠ '\n')) :
    replaceAllIgnoreKeys (renderSep sep segs) o n
      = renderSep (subChar o n sep) (mapNames (subChar o n) segs) := by
  induction segs with
  | nil => simp [renderSep, mapNames, replaceAllIgnoreKeys, riksGo_nil]
  | cons s ss ih =>
    have hfree : '[' ∉ sep :: s.name := by
      intro m
      rcases List.mem_cons.mp m with h1 | h2
      · exact hsep h1.symm
      · exact (hname s (by simp) '[' h2) rfl
    have hshape : renderSep sep (s :: ss)
        = (sep :: s.name) ++ (s.preds.flatMap renderPred ++ renderSep sep ss) := by
      simp [renderSep]
    rw [hshape, RIK_append_free o n _ _ hfree,
      RIK_predChunk o n s.preds _ (hpred s (by simp)),
      ih (fun s2 m => hname s2 (by simp [m])) (fun s2 m => hpred s2 (by simp [m]))]
    simp [renderSep, mapNames, List.append_assoc]

theorem predChar_spec {c : Char} (h : predChar c = true) :
    c ≠ '[' ∧ c ≠ ']' ∧ c ≠ '=' ∧ c ≠ '_' ∧ c ≠ '\x7b' ∧ c ≠ '"' ∧ c ≠ '\n' := by
  simp [predChar] at h
  tauto

theorem nameChar_spec {c : Char} (h : nameChar c = true) :
    (c ≠ '[' ∧ c ≠ ']' ∧ c ≠ '=' ∧ c ≠ '_' ∧ c ≠ '\x7b' ∧ c ≠ '"' ∧ c ≠ '\n')
      ∧ c ≠ '/' ∧ c ≠ '.' := by
  simp [nameChar] at h
  exact ⟨predChar_spec h.1, h.2⟩

theorem jsPredChar_spec {c : Char} (h : jsPredChar c = true) :
    c ≠ '[' ∧ c ≠ ']' ∧ c ≠ '=' ∧ c ≠ '\x7b' ∧ c ≠ '"' ∧ c ≠ '\n' := by
  simp [jsPredChar] at h
  tauto

theorem jsNameChar_spec {c : Char} (h : jsNameChar c = true) :
    (c ≠ '[' ∧ c ≠ ']' ∧ c ≠ '=' ∧ c ≠ '\x7b' ∧ c ≠ '"' ∧ c ≠ '\n')
      ∧ c ≠ '/' ∧ c ≠ '.' := by
  simp [jsNameChar] at h
  exact ⟨jsPredChar_spec h.1, h.2⟩

theorem pathOK_parts {segs : List PathSeg} (h : pathOK segs = true) :
    ∀ s ∈ segs, s.name ≠ []
      ∧ (∀ c ∈ s.name, nameChar c = true)
      ∧ (∀ p ∈ s.preds, (∀ c ∈ p.key, predChar c = true)
          ∧ (∀ c ∈ p.val, predChar c = true)) := by
  intro s hs
  simp [pathOK, List.all_eq_true] at h
  have hseg := h s hs
  simp [segOK, List.all_eq_true] at hseg
  refine ⟨?_, hseg.1.2, ?_⟩
  · intro e
    rw [e] at hseg
    simp at hseg
  · intro p hp
    have := hseg.2 p hp
    simp [predOK, List.all_eq_true] at this
    exact this

theorem jsPathOK_parts {segs : List PathSeg} (h : jsPathOK segs = true) :
    ∀ s ∈ segs, s.name ≠ []
      ∧ (∀ c ∈ s.name, jsNameChar c = true)
      ∧ (∀ p ∈ s.preds, (∀ c ∈ p.key, jsPredChar c = true)
          ∧ (∀ c ∈ p.val, jsPredChar c = true)) := by
  intro s hs
  simp [jsPathOK, List.all_eq_true] at h
  have hseg := h s hs
  simp [jsSegOK, List.all_eq_true] at hseg
  refine ⟨?_, hseg.1.2, ?_⟩
  · intro e
    rw [e] at hseg
    simp at hseg
  · intro p hp
    have := hseg.2 p hp
    simp [jsPredOK, List.all_eq_true] at this
    exact this

theorem map_id_of {f : Char → Char} :
    ∀ {l : List Char}, (∀ c ∈ l, f c = c) → l.map f = l := by
  intro l
  induction l with
  | nil => intro _; rfl
  | cons a t ih =>
    intro h
    simp [h a (by simp), ih (fun c m => h c (by simp [m]))]

theorem mapNames_id {f : Char → Char} {segs : List PathSeg}
    (h : ∀ s ∈ segs, ∀ c ∈ s.name, f c = c) : mapNames f segs = segs := by
  induction segs with
  | nil => rfl
  | cons s ss ih =>
    simp [mapNames, map_id_of (h s (by simp))]
    exact ih (fun s2 m c hc => h s2 (by simp [m]) c hc)

theorem expand_clean (l : List Char)
    (h : ∀ c ∈ l, c ≠ '[' ∧ c ≠ ']' ∧ c ≠ '=') :
    l.flatMap xpCharExpand = l := by
  induction l with
  | nil => rfl
  | cons a t ih =>
    have ha := h a (by simp)
    simp [xpCharExpand, ha.1, ha.2.1, ha.2.2, ih (fun c m => h c (by simp [m]))]

theorem expand_predList (preds : List KeyPred)
    (h : ∀ p ∈ preds, (∀ c ∈ p.key, predChar c = true)
      ∧ (∀ c ∈ p.val, predChar c = true)) :
    (preds.flatMap renderPred).flatMap xpCharExpand
      = preds.flatMap renderJSPred := by
  induction preds with
  | nil => rfl
  | cons p ps ih =>
    have hp := h p (by simp)
    have hkey : p.key.flatMap xpCharExpand = p.key := by
      refine expand_clean _ (fun c m => ?_)
      have hc := predChar_spec (hp.1 c m)
      exact ⟨hc.1, hc.2.1, hc.2.2.1⟩
    have hval : p.val.flatMap xpCharExpand = p.val := by
      refine expand_clean _ (fun c m => ?_)
      have hc := predChar_spec (hp.2 c m)
      exact ⟨hc.1, hc.2.1, hc.2.2.1⟩
    simp only [List.flatMap_cons, renderPred, renderJSPred, List.flatMap_append,
      List.append_assoc, hkey, hval]
    simp [xpCharExpand, hkey, hval, ih (fun q m => h q (by simp [m]))]

theorem expand_renderSep (segs : List PathSeg)
    (hname : ∀ s ∈ segs, ∀ c ∈ s.name, c ≠ '[' ∧ c ≠ ']' ∧ c ≠ '=')
    (hpred : ∀ s ∈ segs, ∀ p ∈ s.preds, (∀ c ∈ p.key, predChar c = true)
      ∧ (∀ c ∈ p.val, predChar c = true)) :
    (renderSep '.' segs).flatMap xpCharExpand = renderJSPath segs := by
  induction segs with
  | nil => rfl
  | cons s ss ih =>
    have hn : s.name.flatMap xpCharExpand = s.name :=
      expand_clean _ (hname s (by simp))
    simp only [renderSep, renderJSPath, List.flatMap_cons, List.flatMap_append,
      List.cons_append]
    simp only [show xpCharExpand '.' = ['.'] from rfl]
    rw [hn, expand_predList s.preds (hpred s (by simp))]
    have ihr := ih (fun s2 m => hname s2 (by simp [m]))
      (fun s2 m => hpred s2 (by simp [m]))
    simp only [renderSep, renderJSPath] at ihr
    simp [ihr]

theorem convertXPathToJSPath_render (segs : List PathSeg) (h : pathOK segs = true) :
    convertXPathToJSPath (renderXPath segs)
      = renderJSPath (mapNames (subChar '-' '_') segs) := by
  have hparts := pathOK_parts h
  rcases segs with _ | ⟨s0, ss0⟩
  · rfl
  · have hne : renderXPath (s0 :: ss0) ≠ [] := by simp [renderXPath, renderSep]
    have hname1 : ∀ s ∈ s0 :: ss0, ∀ c ∈ s.name, c ≠ '[' := fun s m c hc =>
      ((nameChar_spec ((hparts s m).2.1 c hc)).1).1
    have hpred1 : ∀ s ∈ s0 :: ss0, ∀ p ∈ s.preds,
        (∀ c ∈ p.key, c ≠ ']' ∧ c ≠ '\n') ∧ (∀ c ∈ p.val, c ≠ ']' ∧ c ≠ '\n') := by
      intro s m p hp
      constructor
      · intro c hc
        have hs := predChar_spec (((hparts s m).2.2 p hp).1 c hc)
        exact ⟨hs.2.1, hs.2.2.2.2.2.2⟩
      · intro c hc
        have hs := predChar_spec (((hparts s m).2.2 p hp).2 c hc)
        exact ⟨hs.2.1, hs.2.2.2.2.2.2⟩
    unfold convertXPathToJSPath
    rw [if_neg hne]
    rw [show renderXPath (s0 :: ss0) = renderSep '/' (s0 :: ss0) from rfl]
    rw [RIK_renderSep '/' '.' '/' (s0 :: ss0) (by decide) hname1 hpred1]
    rw [show subChar '/' '.' '/' = '.' from rfl]
    rw [mapNames_id (f := subChar '/' '.') (fun s m c hc => by
      have hs := nameChar_spec ((hparts s m).2.1 c hc)
      simp [subChar, hs.2.1])]
    show (replaceAllIgnoreKeys (renderSep '.' (s0 :: ss0)) '-' '_').flatMap xpCharExpand
      = renderJSPath (mapNames (subChar '-' '_') (s0 :: ss0))
    rw [RIK_renderSep '-' '_' '.' (s0 :: ss0) (by decide) hname1 hpred1]
    rw [show subChar '-' '_' '.' = '.' from rfl]
    refine expand_renderSep (mapNames (subChar '-' '_') (s0 :: ss0)) ?_ ?_
    · intro s m c hc
      simp only [mapNames, List.mem_map] at m
      obtain ⟨s1, hs1, rfl⟩ := m
      simp only [List.mem_map] at hc
      obtain ⟨c1, hc1, rfl⟩ := hc
      have hs := nameChar_spec ((hparts s1 hs1).2.1 c1 hc1)
      by_cases e : c1 = '-'
      · simp [subChar, e]
      · simp only [subChar, if_neg e]
        exact ⟨hs.1.1, hs.1.2.1, hs.1.2.2.1⟩
    · intro s m p hp
      simp only [mapNames, List.mem_map] at m
      obtain ⟨s1, hs1, rfl⟩ := m
      exact (hparts s1 hs1).2.2 p hp


theorem jsLoopGo_short (f : Nat) (l : List Char) (h : l.length ≤ 1) :
    jsLoopGo f l = [] := by
  rcases f with _ | f
  · rfl
  · rcases l with _ | ⟨a, t⟩
    · rfl
    · rcases t with _ | ⟨b, u⟩
      · rfl
      · simp at h

theorem jsLoopGo_tok_brace (f : Nat) (rest : List Char) :
    jsLoopGo (f + 1) ('\x7b' :: '.' :: rest) = '[' :: jsLoopGo f rest := by
  simp [jsLoopGo]

theorem jsLoopGo_tok_quote (f : Nat) (rest : List Char) :
    jsLoopGo (f + 1) ('"' :: '\x7d' :: rest) = ']' :: jsLoopGo f rest := by
  simp [jsLoopGo]

theorem jsLoopGo_tok_eq (f : Nat) (c : Char) (rest : List Char) :
    jsLoopGo (f + 1) ('=' :: '=' :: c :: rest) = '=' :: jsLoopGo f rest := by
  simp [jsLoopGo]

theorem jsLoopGo_default (f : Nat) (a b : Char) (rest : List Char)
    (h : isTok a b = false) :
    jsLoopGo (f + 1) (a :: b :: rest)
      = if rest = [] then [a, b] else a :: jsLoopGo f (b :: rest) := by
  have h1 : ¬(a = '\x7b' ∧ b = '.') := fun e => by simp [isTok, e.1, e.2] at h
  have h2 : ¬(a = '"' ∧ b = '\x7d') := fun e => by simp [isTok, e.1, e.2] at h
  have h3 : ¬(a = '=' ∧ b = '=') := fun e => by simp [isTok, e.1, e.2] at h
  rcases rest with _ | ⟨c, w⟩
  · simp [jsLoopGo, h1, h2, h3]
  · simp [jsLoopGo, h1, h2, h3]

theorem jsLoopGo_fuel_congr :
    ∀ (f1 f2 : Nat) (l : List Char), l.length ≤ f1 → l.length ≤ f2 →
      jsLoopGo f1 l = jsLoopGo f2 l := by
  intro f1
  induction f1 with
  | zero =>
    intro f2 l h1 _
    rcases l with _ | ⟨a, t⟩
    · simp [jsLoopGo_short]
    · simp at h1
  | succ g ih =>
    intro f2 l h1 h2
    rcases l with _ | ⟨a, t⟩
    · simp [jsLoopGo_short]
    · rcases t with _ | ⟨b, u⟩
      · simp [jsLoopGo_short]
      · rcases f2 with _ | f2p
        · simp at h2
        · simp only [List.length_cons, Nat.add_le_add_iff_right] at h1 h2
          by_cases e1 : a = '\x7b' ∧ b = '.'
          · obtain ⟨ea, eb⟩ := e1
            subst ea eb
            rw [jsLoopGo_tok_brace, jsLoopGo_tok_brace,
              ih f2p u (by omega) (by omega)]
          · by_cases e2 : a = '"' ∧ b = '\x7d'
            · obtain ⟨ea, eb⟩ := e2
              subst ea eb
              rw [jsLoopGo_tok_quote, jsLoopGo_tok_quote,
                ih f2p u (by omega) (by omega)]
            · by_cases e3 : a = '=' ∧ b = '='
              · obtain ⟨ea, eb⟩ := e3
                subst ea eb
                rcases u with _ | ⟨c, w⟩
                · rfl
                · rw [jsLoopGo_tok_eq, jsLoopGo_tok_eq,
                    ih f2p w (by simp at h1 ⊢; omega) (by simp at h2 ⊢; omega)]
              · have ht : isTok a b = false := by
                  by_contra hcon
                  rw [Bool.not_eq_false] at hcon
                  simp [isTok] at hcon
                  tauto
                rw [jsLoopGo_default g a b u ht, jsLoopGo_default f2p a b u ht]
                rcases u with _ | ⟨c, w⟩
                · rfl
                · simp only [if_neg (by simp : ¬(c :: w = []))]
                  rw [ih f2p (b :: c :: w) (by simp at h1 ⊢; omega)
                    (by simp at h2 ⊢; omega)]

theorem jsLoop_tok_brace (rest : List Char) :
    jsLoop ('\x7b' :: '.' :: rest) = '[' :: jsLoop rest := by
  unfold jsLoop
  rw [show ('\x7b' :: '.' :: rest).length = rest.length + 1 + 1 by simp,
    jsLoopGo_tok_brace,
    jsLoopGo_fuel_congr (rest.length + 1) rest.length rest (by omega) (Nat.le_refl _)]

theorem jsLoop_tok_quote (rest : List Char) :
    jsLoop ('"' :: '\x7d' :: rest) = ']' :: jsLoop rest := by
  unfold jsLoop
  rw [show ('"' :: '\x7d' :: rest).length = rest.length + 1 + 1 by simp,
    jsLoopGo_tok_quote,
    jsLoopGo_fuel_congr (rest.length + 1) rest.length rest (by omega) (Nat.le_refl _)]

theorem jsLoop_tok_eq (c : Char) (rest : List Char) :
    jsLoop ('=' :: '=' :: c :: rest) = '=' :: jsLoop rest := by
  unfold jsLoop
  rw [show ('=' :: '=' :: c :: rest).length = rest.length + 2 + 1 by simp,
    jsLoopGo_tok_eq,
    jsLoopGo_fuel_congr (rest.length + 2) rest.length rest (by omega) (Nat.le_refl _)]

theorem jsLoop_default (a b : Char) (rest : List Char) (h : isTok a b = false) :
    jsLoop (a :: b :: rest)
      = if rest = [] then [a, b] else a :: jsLoop (b :: rest) := by
  unfold jsLoop
  rw [show (a :: b :: rest).length = (b :: rest).length + 1 by simp,
    jsLoopGo_default (b :: rest).length a b rest h]

theorem isTok_false_of_first (a b : Char)
    (h : a ≠ '\x7b' ∧ a ≠ '"' ∧ a ≠ '=') : isTok a b = false := by
  simp [isTok, h.1, h.2.1, h.2.2]

theorem noTokRun_append_clean (l : List Char) (x : Char)
    (h : ∀ c ∈ l, c ≠ '\x7b' ∧ c ≠ '"' ∧ c ≠ '=') :
    noTokRun (l ++ [x]) = true := by
  induction l with
  | nil => rfl
  | cons a t ih =>
    obtain ⟨b, v, hbv⟩ : ∃ b v, t ++ [x] = b :: v := by
      rcases t with _ | ⟨y, t2⟩
      · exact ⟨x, [], rfl⟩
      · exact ⟨y, t2 ++ [x], rfl⟩
    have hrest := ih (fun c m => h c (by simp [m]))
    rw [List.cons_append, hbv]
    show (!isTok a b && noTokRun (b :: v)) = true
    rw [isTok_false_of_first a b (h a (by simp)), ← hbv, hrest]
    rfl

theorem jsLoop_append_chunk :
    ∀ (l1 l2 : List Char), 2 ≤ l2.length →
      noTokRun (l1 ++ l2.take 1) = true →
      jsLoop (l1 ++ l2) = l1 ++ jsLoop l2 := by
  intro l1
  induction l1 with
  | nil => intro l2 _ _; simp
  | cons a t ih =>
    intro l2 hl hrun
    obtain ⟨b, u, hbu⟩ : ∃ b u, t ++ l2 = b :: u := by
      rcases t with _ | ⟨x, t2⟩
      · rcases l2 with _ | ⟨y, l22⟩
        · simp at hl
        · exact ⟨y, l22, by simp⟩
      · exact ⟨x, t2 ++ l2, rfl⟩
    obtain ⟨v, hv⟩ : ∃ v, t ++ l2.take 1 = b :: v := by
      rcases t with _ | ⟨x, t2⟩
      · rcases l2 with _ | ⟨y, l22⟩
        · simp at hl
        · simp at hbu
          exact ⟨[], by simp [hbu.1]⟩
      · simp at hbu
        exact ⟨t2 ++ l2.take 1, by simp [hbu.1]⟩
    rw [List.cons_append, hv] at hrun
    have hrun2 : (!isTok a b && noTokRun (b :: v)) = true := hrun
    simp only [Bool.and_eq_true, Bool.not_eq_true'] at hrun2
    have hu : u ≠ [] := by
      intro e
      have hlen := congrArg List.length hbu
      simp [e] at hlen
      omega
    rw [List.cons_append, hbu, jsLoop_default a b u hrun2.1, if_neg hu, ← hbu,
      ih l2 hl (by rw [hv]; exact hrun2.2)]
    simp

theorem jsLoop_noTok_self :
    ∀ (l : List Char), 2 ≤ l.length → noTokRun l = true → jsLoop l = l := by
  intro l
  induction l with
  | nil => intro h _; simp at h
  | cons a t ih =>
    intro hl hrun
    rcases t with _ | ⟨b, u⟩
    · simp at hl
    · have hrun2 : (!isTok a b && noTokRun (b :: u)) = true := hrun
      simp only [Bool.and_eq_true, Bool.not_eq_true'] at hrun2
      rcases u with _ | ⟨c, w⟩
      · rw [jsLoop_default a b [] hrun2.1]
        simp
      · rw [jsLoop_default a b (c :: w) hrun2.1, if_neg (by simp)]
        rw [ih (by simp) hrun2.2]

theorem noTokRun_clean (l : List Char)
    (h : ∀ c ∈ l, c ≠ '\x7b' ∧ c ≠ '"' ∧ c ≠ '=') : noTokRun l = true := by
  induction l with
  | nil => rfl
  | cons a t ih =>
    rcases t with _ | ⟨b, v⟩
    · rfl
    · show (!isTok a b && noTokRun (b :: v)) = true
      rw [isTok_false_of_first a b (h a (by simp)),
        ih (fun c m => h c (by simp [m]))]
      rfl

theorem jsLoop_pred_chunk (p : KeyPred) (rest : List Char)
    (hkey : ∀ c ∈ p.key, jsPredChar c = true)
    (hval : ∀ c ∈ p.val, jsPredChar c = true) :
    jsLoop (renderJSPred p ++ rest) = renderPred p ++ jsLoop rest := by
  have hkeyclean : ∀ c ∈ p.key, c ≠ '\x7b' ∧ c ≠ '"' ∧ c ≠ '=' := by
    intro c m
    have hs := jsPredChar_spec (hkey c m)
    exact ⟨hs.2.2.2.1, hs.2.2.2.2.1, hs.2.2.1⟩
  have hvalclean : ∀ c ∈ p.val, c ≠ '\x7b' ∧ c ≠ '"' ∧ c ≠ '=' := by
    intro c m
    have hs := jsPredChar_spec (hval c m)
    exact ⟨hs.2.2.2.1, hs.2.2.2.2.1, hs.2.2.1⟩
  have hshape : renderJSPred p ++ rest
      = '\x7b' :: '.' :: (p.key
          ++ ('=' :: '=' :: '"' :: (p.val ++ ('"' :: '\x7d' :: rest)))) := by
    simp [renderJSPred, List.append_assoc]
  rw [hshape, jsLoop_tok_brace,
    jsLoop_append_chunk p.key ('=' :: '=' :: '"' :: (p.val ++ ('"' :: '\x7d' :: rest)))
      (by simp) (noTokRun_append_clean p.key '=' hkeyclean),
    jsLoop_tok_eq,
    jsLoop_append_chunk p.val ('"' :: '\x7d' :: rest)
      (by simp) (noTokRun_append_clean p.val '"' hvalclean),
    jsLoop_tok_quote]
  simp [renderPred, List.append_assoc]

theorem jsLoop_predList (preds : List KeyPred) (rest : List Char)
    (h : ∀ p ∈ preds, (∀ c ∈ p.key, jsPredChar c = true)
      ∧ (∀ c ∈ p.val, jsPredChar c = true)) :
    jsLoop (preds.flatMap renderJSPred ++ rest)
      = preds.flatMap renderPred ++ jsLoop rest := by
  induction preds with
  | nil => simp
  | cons p ps ih =>
    have hp := h p (by simp)
    rw [List.flatMap_cons, List.append_assoc, jsLoop_pred_chunk p _ hp.1 hp.2,
      ih (fun q m => h q (by simp [m]))]
    simp [List.append_assoc]

theorem jsLoop_renderJSPath (segs : List PathSeg) (h : jsPathOK segs = true) :
    jsLoop (renderJSPath segs) = renderSep '.' segs := by
  induction segs with
  | nil => rfl
  | cons s ss ih =>
    have hparts := jsPathOK_parts h
    have hs := hparts s (by simp)
    have hss : jsPathOK ss = true := by
      simp only [jsPathOK, List.all_eq_true] at h ⊢
      exact fun s2 m => h s2 (by simp [m])
    have hnameclean : ∀ c ∈ ('.' :: s.name), c ≠ '\x7b' ∧ c ≠ '"' ∧ c ≠ '=' := by
      intro c m
      rcases List.mem_cons.mp m with e | m2
      · subst e; exact ⟨by decide, by decide, by decide⟩
      · have hc := jsNameChar_spec (hs.2.1 c m2)
        exact ⟨hc.1.2.2.2.1, hc.1.2.2.2.2.1, hc.1.2.2.1⟩
    have hshape : renderJSPath (s :: ss)
        = ('.' :: s.name) ++ (s.preds.flatMap renderJSPred ++ renderJSPath ss) := by
      simp [renderJSPath]
    by_cases hemp : s.preds.flatMap renderJSPred ++ renderJSPath ss = []
    · obtain ⟨he1, he2⟩ := List.append_eq_nil.mp hemp
      have hpnil : s.preds = [] := by
        rcases hp : s.preds with _ | ⟨p0, ps⟩
        · rfl
        · rw [hp] at he1
          simp [renderJSPred] at he1
      have hsnil : ss = [] := by
        rcases hs2 : ss with _ | ⟨s2, ss2⟩
        · rfl
        · rw [hs2] at he2
          simp [renderJSPath] at he2
      rw [hshape, hemp, List.append_nil,
        jsLoop_noTok_self ('.' :: s.name)
          (by rcases hn : s.name with _ | ⟨x, t⟩
              · exact absurd hn hs.1
              · simp)
          (noTokRun_clean _ hnameclean)]
      simp [renderSep, hpnil, hsnil]
    · have h2 : 2 ≤ (s.preds.flatMap renderJSPred ++ renderJSPath ss).length := by
        rcases hp : s.preds with _ | ⟨p0, ps⟩
        · rcases hs2 : ss with _ | ⟨s2, ss2⟩
          · exfalso
            apply hemp
            rw [hp, hs2]
            rfl
          · have hn2 := (hparts s2 (by simp [hs2])).1
            have hlen : 1 ≤ s2.name.length := by
              rcases hname2 : s2.name with _ | ⟨x, t⟩
              · exact absurd hname2 hn2
              · simp
            simp only [List.flatMap_nil, List.nil_append, renderJSPath,
              List.flatMap_cons, List.length_append, List.length_cons]
            omega
        · simp only [List.flatMap_cons, List.length_append, List.length_cons,
            renderJSPred]
          omega
      obtain ⟨y, l2t, hy⟩ : ∃ y l2t,
          s.preds.flatMap renderJSPred ++ renderJSPath ss = y :: l2t := by
        rcases hx : s.preds.flatMap renderJSPred ++ renderJSPath ss with _ | ⟨y, t⟩
        · exact absurd hx hemp
        · exact ⟨y, t, rfl⟩
      have hrun : noTokRun (('.' :: s.name)
          ++ (s.preds.flatMap renderJSPred ++ renderJSPath ss).take 1) = true := by
        rw [hy]
        exact noTokRun_append_clean _ y hnameclean
      rw [hshape, jsLoop_append_chunk ('.' :: s.name) _ h2 hrun,
        jsLoop_predList s.preds _ hs.2.2, ih hss]
      simp [renderSep, List.append_assoc]

theorem renderJSPath_no_bracket (segs : List PathSeg) (h : jsPathOK segs = true) :
    '[' ∉ renderJSPath segs := by
  have hparts := jsPathOK_parts h
  intro hm
  rw [renderJSPath] at hm
  obtain ⟨s, hsm, hc⟩ := List.mem_flatMap.mp hm
  have hsp := hparts s hsm
  rcases List.mem_cons.mp hc with e | hc2
  · exact absurd e (by decide)
  rcases List.mem_append.mp hc2 with hn | hp
  · exact ((jsNameChar_spec (hsp.2.1 _ hn)).1).1 rfl
  obtain ⟨p, hpm, hcp⟩ := List.mem_flatMap.mp hp
  have hppred := hsp.2.2 p hpm
  rw [renderJSPred] at hcp
  rcases List.mem_cons.mp hcp with e | hcp
  · exact absurd e (by decide)
  rcases List.mem_cons.mp hcp with e | hcp
  · exact absurd e (by decide)
  rcases List.mem_append.mp hcp with hk | hcp
  · exact (jsPredChar_spec (hppred.1 _ hk)).1 rfl
  rcases List.mem_cons.mp hcp with e | hcp
  · exact absurd e (by decide)
  rcases List.mem_cons.mp hcp with e | hcp
  · exact absurd e (by decide)
  rcases List.mem_cons.mp hcp with e | hcp
  · exact absurd e (by decide)
  rcases List.mem_append.mp hcp with hv | hcp
  · exact (jsPredChar_spec (hppred.2 _ hv)).1 rfl
  rcases List.mem_cons.mp hcp with e | hcp
  · exact absurd e (by decide)
  rcases List.mem_cons.mp hcp with e | hcp
  · exact absurd e (by decide)
  exact absurd hcp (List.not_mem_nil _)

theorem map_renderJSPred (f : Char → Char)
    (hf : f '.' = '.' ∧ f '\x7b' = '\x7b' ∧ f '"' = '"' ∧ f '=' = '='
      ∧ f '\x7d' = '\x7d') (p : KeyPred) :
    (renderJSPred p).map f
      = renderJSPred ⟨p.key.map f, p.val.map f⟩ := by
  simp [renderJSPred, hf.1, hf.2.1, hf.2.2.1, hf.2.2.2.1, hf.2.2.2.2]

theorem map_renderJSPath (f : Char → Char)
    (hf : f '.' = '.' ∧ f '\x7b' = '\x7b' ∧ f '"' = '"' ∧ f '=' = '='
      ∧ f '\x7d' = '\x7d') (segs : List PathSeg) :
    (renderJSPath segs).map f = renderJSPath (segs.map (mapSegAll f)) := by
  have hpred : ∀ (preds : List KeyPred), (preds.flatMap renderJSPred).map f
      = (preds.map (fun p => (⟨p.key.map f, p.val.map f⟩ : KeyPred))).flatMap
          renderJSPred := by
    intro preds
    induction preds with
    | nil => rfl
    | cons p ps ihp => simp [map_renderJSPred f hf p, ihp]
  induction segs with
  | nil => rfl
  | cons s ss ih =>
    have step : renderJSPath (s :: ss)
        = ('.' :: (s.name ++ s.preds.flatMap renderJSPred)) ++ renderJSPath ss := by
      simp [renderJSPath]
    have step2 : renderJSPath ((s :: ss).map (mapSegAll f))
        = ('.' :: (s.name.map f
            ++ (s.preds.map (fun p => (⟨p.key.map f, p.val.map f⟩ : KeyPred))).flatMap
                renderJSPred))
          ++ renderJSPath (ss.map (mapSegAll f)) := by
      simp [renderJSPath, mapSegAll]
    rw [step, step2, List.map_append, List.map_cons, hf.1, List.map_append,
      hpred s.preds, ih]

theorem subU_jsNameChar {c : Char} (h : jsNameChar c = true) :
    jsNameChar (subChar '_' '-' c) = true := by
  by_cases e : c = '_'
  · subst e; decide
  · rw [show subChar '_' '-' c = c by simp [subChar, e]]
    exact h

theorem subU_jsPredChar {c : Char} (h : jsPredChar c = true) :
    jsPredChar (subChar '_' '-' c) = true := by
  by_cases e : c = '_'
  · subst e; decide
  · rw [show subChar '_' '-' c = c by simp [subChar, e]]
    exact h

theorem jsPathOK_map_sub (segs : List PathSeg) (h : jsPathOK segs = true) :
    jsPathOK (segs.map (mapSegAll (subChar '_' '-'))) = true := by
  simp only [jsPathOK, List.all_eq_true] at h ⊢
  intro s2 hs2
  obtain ⟨s, hsm, rfl⟩ := List.mem_map.mp hs2
  have hseg := h s hsm
  simp only [jsSegOK, Bool.and_eq_true, List.all_eq_true] at hseg
  obtain ⟨⟨h1, h2⟩, h3⟩ := hseg
  simp only [jsSegOK, Bool.and_eq_true, List.all_eq_true, mapSegAll]
  refine ⟨⟨?_, ?_⟩, ?_⟩
  · rcases hn : s.name with _ | ⟨x, t⟩
    · rw [hn] at h1; simp at h1
    · simp
  · intro c hc
    obtain ⟨c1, hc1, rfl⟩ := List.mem_map.mp hc
    exact subU_jsNameChar (h2 c1 hc1)
  · intro p hp
    obtain ⟨p1, hp1, rfl⟩ := List.mem_map.mp hp
    have hpo := h3 p1 hp1
    simp only [jsPredOK, Bool.and_eq_true, List.all_eq_true] at hpo ⊢
    constructor
    · intro c hc
      obtain ⟨c1, hc1, rfl⟩ := List.mem_map.mp hc
      exact subU_jsPredChar (hpo.1 c1 hc1)
    · intro c hc
      obtain ⟨c1, hc1, rfl⟩ := List.mem_map.mp hc
      exact subU_jsPredChar (hpo.2 c1 hc1)

theorem convertJSPathToXPath_render (segs : List PathSeg) (h : jsPathOK segs = true) :
    convertJSPathToXPath (renderJSPath segs)
      = renderXPath (segs.map (mapSegAll (subChar '_' '-'))) := by
  rcases segs with _ | ⟨s0, ss0⟩
  · rfl
  · have hne : renderJSPath (s0 :: ss0) ≠ [] := by simp [renderJSPath]
    unfold convertJSPathToXPath
    rw [if_neg hne]
    show replaceAllIgnoreKeys
        (jsLoop (replaceAllIgnoreKeys (renderJSPath (s0 :: ss0)) '_' '-')) '.' '/'
      = renderXPath ((s0 :: ss0).map (mapSegAll (subChar '_' '-')))
    rw [RIK_map_free '_' '-' _ (renderJSPath_no_bracket _ h)]
    rw [map_renderJSPath (subChar '_' '-') ⟨rfl, rfl, rfl, rfl, rfl⟩ (s0 :: ss0)]
    have hok2 := jsPathOK_map_sub (s0 :: ss0) h
    rw [jsLoop_renderJSPath _ hok2]
    have hparts2 := jsPathOK_parts hok2
    rw [RIK_renderSep '.' '/' '.' _ (by decide)
      (fun s m c hc => ((jsNameChar_spec ((hparts2 s m).2.1 c hc)).1).1)
      (fun s m p hp =>
        ⟨fun c hc => by
          have hs := jsPredChar_spec (((hparts2 s m).2.2 p hp).1 c hc)
          exact ⟨hs.2.1, hs.2.2.2.2.2⟩,
        fun c hc => by
          have hs := jsPredChar_spec (((hparts2 s m).2.2 p hp).2 c hc)
          exact ⟨hs.2.1, hs.2.2.2.2.2⟩⟩)]
    rw [show subChar '.' '/' '.' = '/' from rfl]
    rw [mapNames_id (fun s m c hc => by
      have hs := jsNameChar_spec ((hparts2 s m).2.1 c hc)
      simp [subChar, hs.2.2])]
    rfl

theorem predChar_to_js {c : Char} (h : predChar c = true) : jsPredChar c = true := by
  obtain ⟨a1, a2, a3, a4, a5, a6, a7⟩ := predChar_spec h
  simp [jsPredChar]
  tauto

theorem nameChar_to_js {c : Char} (h : nameChar c = true) :
    jsNameChar (subChar '-' '_' c) = true := by
  by_cases e : c = '-'
  · subst e; decide
  · rw [show subChar '-' '_' c = c by simp [subChar, e]]
    obtain ⟨⟨a1, a2, a3, a4, a5, a6, a7⟩, b1, b2⟩ := nameChar_spec h
    simp [jsNameChar, jsPredChar]
    tauto

theorem pathOK_mapNames_js (segs : List PathSeg) (h : pathOK segs = true) :
    jsPathOK (mapNames (subChar '-' '_') segs) = true := by
  simp only [jsPathOK, List.all_eq_true]
  intro s2 hs2
  simp only [mapNames, List.mem_map] at hs2
  obtain ⟨s, hsm, rfl⟩ := hs2
  have hsp := pathOK_parts h s hsm
  simp only [jsSegOK, Bool.and_eq_true, List.all_eq_true]
  refine ⟨⟨?_, ?_⟩, ?_⟩
  · rcases hn : s.name with _ | ⟨x, t⟩
    · exact absurd hn hsp.1
    · simp [hn]
  · intro c hc
    obtain ⟨c1, hc1, rfl⟩ := List.mem_map.mp hc
    exact nameChar_to_js (hsp.2.1 c1 hc1)
  · intro p hp
    have hpo := hsp.2.2 p hp
    simp only [jsPredOK, Bool.and_eq_true, List.all_eq_true]
    exact ⟨fun c hc => predChar_to_js (hpo.1 c hc),
      fun c hc => predChar_to_js (hpo.2 c hc)⟩

theorem map_pred_id (preds : List KeyPred)
    (h : ∀ p ∈ preds, (∀ c ∈ p.key, predChar c = true)
      ∧ (∀ c ∈ p.val, predChar c = true)) :
    preds.map (fun p => (⟨p.key.map (subChar '_' '-'),
      p.val.map (subChar '_' '-')⟩ : KeyPred)) = preds := by
  induction preds with
  | nil => rfl
  | cons p ps ih =>
    have hp := h p (by simp)
    have hkey : p.key.map (subChar '_' '-') = p.key :=
      map_id_of (fun c m => by
        have hs := predChar_spec (hp.1 c m)
        simp [subChar, hs.2.2.2.1])
    have hval : p.val.map (subChar '_' '-') = p.val :=
      map_id_of (fun c m => by
        have hs := predChar_spec (hp.2 c m)
        simp [subChar, hs.2.2.2.1])
    simp [hkey, hval, ih (fun q m => h q (by simp [m]))]

theorem roundtrip_cleanup (segs : List PathSeg) (h : pathOK segs = true) :
    (mapNames (subChar '-' '_') segs).map (mapSegAll (subChar '_' '-')) = segs := by
  induction segs with
  | nil => rfl
  | cons s ss ih =>
    have hsp := pathOK_parts h s (by simp)
    have hss : pathOK ss = true := by
      simp only [pathOK, List.all_eq_true] at h ⊢
      exact fun x m => h x (by simp [m])
    have hname : (s.name.map (subChar '-' '_')).map (subChar '_' '-') = s.name := by
      rw [List.map_map]
      refine map_id_of (fun c hc => ?_)
      have hs2 := nameChar_spec (hsp.2.1 c hc)
      by_cases e : c = '-'
      · subst e; rfl
      · have e2 : c ≠ '_' := hs2.1.2.2.2.1
        simp [Function.comp, subChar, e, e2]
    have ih2 := ih hss
    simp only [mapNames, List.map_cons, mapSegAll] at ih2 ⊢
    rw [map_pred_id s.preds hsp.2.2, hname, ih2]

theorem xpath_roundtrip (segs : List PathSeg) (h : pathOK segs = true) :
    convertJSPathToXPath (convertXPathToJSPath (renderXPath segs))
      = renderXPath segs := by
  rw [convertXPathToJSPath_render segs h,
    convertJSPathToXPath_render (mapNames (subChar '-' '_') segs)
      (pathOK_mapNames_js segs h),
    roundtrip_cleanup segs h]

/-! ## Claim theorems for the path translation -/

/-- C1 (counterexample): the hierarchical path /a_b has zero bracketed
key predicates, so the claim's hypothesis on key values holds
vacuously, yet converting to the internal notation and back yields
/a-b: the reverse conversion turns the underscore of the segment name
into a hyphen, so the roundtrip is not the identity on this path.
Key values containing none of the claim's three excluded characters
also break the roundtrip when they contain an underscore, a brace
followed by a dot, a quote followed by a closing brace, or a newline
followed by a dot, as the remaining conjuncts show. -/
theorem c1_roundtrip_counterexample :
    renderXPath [⟨("a_b").data, []⟩] = ("/a_b").data
    ∧ convertJSPathToXPath (convertXPathToJSPath (("/a_b").data)) = ("/a-b").data
    ∧ ("/a-b").data ≠ ("/a_b").data
    ∧ convertJSPathToXPath (convertXPathToJSPath (("/a/b[x=my_val]").data))
        = ("/a/b[x=my-val]").data
    ∧ convertJSPathToXPath (convertXPathToJSPath (("/a[k=x\x7b.y]").data))
        = ("/a[k=x[y]").data
    ∧ convertJSPathToXPath (convertXPathToJSPath (("/a[k=x\"\x7dy]").data))
        = ("/a[k=x]y]").data
    ∧ convertJSPathToXPath (convertXPathToJSPath (("/a[k=x\n.y]").data))
        = ("/a[k=x\n/y]").data := by
  decide

/-- C1 (amended): for every hierarchical path with zero or more
bracketed key predicates whose segment names are nonempty and contain
none of the characters substituted or introduced by the conversion
(slash, dot, underscore, brackets, equals, brace, quote, newline;
hyphens are allowed) and whose key names and key values contain no
bracket, equals, underscore, opening brace, quote or newline (key
values may contain slashes, hyphens and dots, e.g. ethernet-1/1),
converting to the internal notation and back is the identity. -/
theorem c1_xpath_roundtrip_amended (segs : List PathSeg)
    (h : pathOK segs = true) :
    convertJSPathToXPath (convertXPathToJSPath (renderXPath segs))
      = renderXPath segs :=
  xpath_roundtrip segs h

/-- C1 (witness): the roundtrip on /a-b[x=ethernet-1/1]. -/
theorem c1_roundtrip_witness :
    pathOK [⟨("a-b").data, [⟨("x").data, ("ethernet-1/1").data⟩]⟩] = true
    ∧ convertJSPathToXPath (convertXPathToJSPath
        (renderXPath [⟨("a-b").data, [⟨("x").data, ("ethernet-1/1").data⟩]⟩]))
      = renderXPath [⟨("a-b").data, [⟨("x").data, ("ethernet-1/1").data⟩]⟩] :=
  ⟨by decide, c1_xpath_roundtrip_amended _ (by decide)⟩

/-- C2: convertXPathToJSPath returns exactly the spec's literal outputs
on each listed input; the hyphen of a segment name becomes an
underscore, the empty string maps to itself, every bracketed predicate
of a multi-predicate path is rewritten independently, and the key
value ethernet-1/1 is left byte for byte intact. -/
theorem c2_literal_examples :
    convertXPathToJSPathS ("/interfaces/interface") = (".interfaces.interface")
    ∧ convertXPathToJSPathS ("/system-config/hostname") = (".system_config.hostname")
    ∧ convertXPathToJSPathS ("/interfaces/interface[name=eth0]")
        = (".interfaces.interface\x7b.name==\"eth0\"\x7d")
    ∧ convertXPathToJSPathS ("") = ("")
    ∧ convertXPathToJSPathS ("/a/b[x=1]/c[y=2]/d[z=3]")
        = (".a.b\x7b.x==\"1\"\x7d.c\x7b.y==\"2\"\x7d.d\x7b.z==\"3\"\x7d")
    ∧ convertXPathToJSPathS ("/a/b[x=ethernet-1/1]")
        = (".a.b\x7b.x==\"ethernet-1/1\"\x7d") := by
  decide

/-- C3 (counterexample): the internal path .a\x7b.x=="b_c"\x7d carries the
key value b_c; the claim says an underscore inside a key predicate is
never turned into a hyphen, which would give /a[x=b_c], but the
conversion replaces underscores before the predicates are recognised
and yields /a[x=b-c]. -/
theorem c3_underscore_counterexample :
    renderJSPath [⟨("a").data, [⟨("x").data, ("b_c").data⟩]⟩]
      = (".a\x7b.x==\"b_c\"\x7d").data
    ∧ convertJSPathToXPathS (".a\x7b.x==\"b_c\"\x7d") = ("/a[x=b-c]")
    ∧ ("/a[x=b-c]") ≠ ("/a[x=b_c]") := by
  refine ⟨by decide, by decide, by decide⟩

/-- C3 (amended): for every internal path over the segment grammar
(nonempty segment names without separators, brackets, equals, brace,
quote or newline; key names and values without brackets, equals,
opening brace, quote or newline), convertJSPathToXPath turns member
separators into path separators, rewrites every brace predicate to
bracket notation, turns underscores into hyphens everywhere, in
segment names and inside key predicates alike, and passes all other
characters through unchanged. -/
theorem c3_convertJSPathToXPath_amended (segs : List PathSeg)
    (h : jsPathOK segs = true) :
    convertJSPathToXPath (renderJSPath segs)
      = renderXPath (segs.map (mapSegAll (subChar '_' '-'))) :=
  convertJSPathToXPath_render segs h

/-- C3 (witness): conversion of .a_b\x7b.x=="eth0"\x7d. -/
theorem c3_convert_witness :
    jsPathOK [⟨("a_b").data, [⟨("x").data, ("eth0").data⟩]⟩] = true
    ∧ convertJSPathToXPath
        (renderJSPath [⟨("a_b").data, [⟨("x").data, ("eth0").data⟩]⟩])
      = renderXPath ([⟨("a_b").data, [⟨("x").data, ("eth0").data⟩]⟩].map
          (mapSegAll (subChar '_' '-'))) :=
  ⟨by decide, c3_convertJSPathToXPath_amended _ (by decide)⟩

/-! ## Claim theorems for configuration notification handling -/

/-- C4: in aggregate mode a batch produces exactly one full config
fetch followed by one FullConfigReceived signal for each notification
whose key path is the commit end marker and whose commit sequence does
not read as zero; a notification whose commit sequence parses to zero
never produces an effect, and a JSON string the unmarshal rejects is
reported as not zero. -/
theorem c4_aggregate_commit_end :
    (∀ notifs : List (Option ConfigNotificationMsg),
      handleConfigNotifications false notifs
        = ((notifs.filterMap id).filter
            (fun n => n.jsPath == commitEndKeyPath
              && !isCommitSeqZero n.jsonCommitSeq)).flatMap
            (fun _ => [ConfigEffect.fullConfigFetch,
              ConfigEffect.fullConfigReceivedSignal]))
    ∧ (∀ (op jp jpk : String) (keys : List String) (json : String),
        handleConfigNotifications false
          [some ⟨op, jp, jpk, keys, json, CommitSeqParse.ok 0⟩] = [])
    ∧ isCommitSeqZero CommitSeqParse.malformed = false := by
  refine ⟨?_, ?_, rfl⟩
  · intro notifs
    induction notifs with
    | nil => rfl
    | cons o rest ih =>
      rcases o with _ | n
      · simpa [handleConfigNotifications, List.filterMap_cons] using ih
      · have hunfold : handleConfigNotifications false (some n :: rest)
            = (if n.jsPath = commitEndKeyPath
                  ∧ ¬(isCommitSeqZero n.jsonCommitSeq = true)
               then [ConfigEffect.fullConfigFetch,
                 ConfigEffect.fullConfigReceivedSignal] else [])
              ++ handleConfigNotifications false rest := by
          simp [handleConfigNotifications]
        rw [hunfold, ih]
        by_cases h1 : n.jsPath = commitEndKeyPath
            ∧ ¬(isCommitSeqZero n.jsonCommitSeq = true)
        · have hb : (n.jsPath == commitEndKeyPath
              && !isCommitSeqZero n.jsonCommitSeq) = true := by
            cases hx : isCommitSeqZero n.jsonCommitSeq
            · simp [h1.1]
            · exact absurd hx h1.2
          rw [if_pos h1]
          simp [List.filterMap_cons, List.filter_cons, hb]
        · have hb : (n.jsPath == commitEndKeyPath
              && !isCommitSeqZero n.jsonCommitSeq) = false := by
            by_cases hA : n.jsPath = commitEndKeyPath
            · cases hx : isCommitSeqZero n.jsonCommitSeq
              · exact absurd ⟨hA, by simp [hx]⟩ h1
              · simp [hx]
            · simp [hA]
          rw [if_neg h1]
          simp [List.filterMap_cons, List.filter_cons, hb]
  · intro op jp jpk keys json
    simp [handleConfigNotifications, isCommitSeqZero]

/-- C5 (counterexample): a streamed notification whose key path with
keys is the commit end marker but whose plain key path is .a_b is
forwarded with PathWithoutKeys verbatim, although the claim requires
PathWithoutKeys always to be translated, which here would give
/a-b. -/
theorem c5_marker_counterexample :
    handleConfigNotifications true
      [some ⟨("Update"), (".a_b"), (".commit.end"), [], ("\x7b\x7d"),
        CommitSeqParse.ok 3⟩]
      = [ConfigEffect.streamConfigOut
          ⟨("Update"), (".commit.end"), (".a_b"), [], ("\x7b\x7d")⟩]
    ∧ convertJSPathToXPathS (".a_b") = ("/a-b")
    ∧ (".a_b") ≠ ("/a-b") := by
  refine ⟨by decide, by decide, by decide⟩

/-- C5 (amended): in streaming mode every non-empty notification of a
batch is forwarded individually on the Config channel with Op, Keys
and Json copied from the envelope; a notification whose Path is the
commit end marker is forwarded entirely verbatim, neither Path nor
PathWithoutKeys being translated, and every other notification has
both Path and PathWithoutKeys translated by convertJSPathToXPath. -/
theorem c5_streaming_amended :
    (∀ notifs : List (Option ConfigNotificationMsg),
      handleConfigNotifications true notifs
        = (notifs.filterMap id).map
            (fun n => ConfigEffect.streamConfigOut (parseConfig n)))
    ∧ (∀ n : ConfigNotificationMsg,
        parseConfig n
          = if n.jsPathWithKeys = commitEndKeyPath then
              ⟨n.op, n.jsPathWithKeys, n.jsPath, n.keys, n.json⟩
            else ⟨n.op, convertJSPathToXPathS n.jsPathWithKeys,
              convertJSPathToXPathS n.jsPath, n.keys, n.json⟩) := by
  constructor
  · intro notifs
    induction notifs with
    | nil => rfl
    | cons o rest ih =>
      rcases o with _ | n
      · simpa [handleConfigNotifications, List.filterMap_cons] using ih
      · have hunfold : handleConfigNotifications true (some n :: rest)
            = ConfigEffect.streamConfigOut (parseConfig n)
              :: handleConfigNotifications true rest := by
          simp [handleConfigNotifications]
        rw [hunfold, ih]
        simp [List.filterMap_cons]
  · intro n
    by_cases e : n.jsPathWithKeys = commitEndKeyPath
    · simp [parseConfig, e]
    · simp [parseConfig, e]

/-! ## Claim theorems for state management -/

/-- C6: deleting a path that was never added fails with the state
delete error carrying that path, before any telemetry RPC is consulted
(the result does not depend on the delete oracle and no updated agent
is produced, so the tracked path set is unchanged); a successful
DeleteAllState always ends with an empty tracked path set. -/
theorem c6_delete_state_spec :
    (∀ (a : StateAgent) (p : String), p ∉ a.paths →
      DeleteState a p = .error (.stateDeleteFailed p))
    ∧ (∀ (a a2 : StateAgent), DeleteAllState a = .ok a2 → a2.paths = []) := by
  constructor
  · intro a p hp
    simp [DeleteState, hp]
  · intro a a2 h
    have hgen : ∀ (l : List String) (b b2 : StateAgent),
        deleteAllGo b l = .ok b2 → b2.paths = [] := by
      intro l
      induction l with
      | nil =>
        intro b b2 h2
        simp [deleteAllGo] at h2
        rw [← h2]
      | cons q qs ih =>
        intro b b2 h2
        simp only [deleteAllGo] at h2
        cases hd : DeleteState b q with
        | ok b3 =>
          rw [hd] at h2
          exact ih b3 b2 h2
        | error e =>
          rw [hd] at h2
          simp at h2
    exact hgen a.paths a a2 h

/-- C6 (witness): deleting the untracked path /x from an agent
tracking only /a fails with the delete error, and the agent obtained
from a successful DeleteAllState tracks nothing. -/
theorem c6_delete_state_witness :
    ¬(("/x") ∈ ((⟨("/g"), [("/a")], fun _ => true, fun _ _ => true⟩
        : StateAgent)).paths)
    ∧ DeleteState (⟨("/g"), [("/a")], fun _ => true, fun _ _ => true⟩
        : StateAgent) ("/x") = .error (.stateDeleteFailed ("/x"))
    ∧ ((⟨("/g"), [], fun _ => true, fun _ _ => true⟩ : StateAgent)).paths = [] :=
  ⟨by decide, c6_delete_state_spec.1 _ _ (by decide),
    c6_delete_state_spec.2
      (⟨("/g"), [("/a")], fun _ => true, fun _ _ => true⟩ : StateAgent)
      (⟨("/g"), [], fun _ => true, fun _ _ => true⟩ : StateAgent) rfl⟩

/-- C9: UpdateState adds the path to the tracked path set exactly when
the telemetry add-or-update RPC succeeds and otherwise returns the
add-or-update error without an updated agent; DeleteState on a tracked
path removes it exactly when the telemetry delete RPC succeeds and
otherwise returns the delete error without an updated agent. -/
theorem c9_state_mutate_on_success :
    (∀ (a : StateAgent) (p d : String),
      a.telemetryUpdateOk (jsPathOf a p) d = true →
        UpdateState a p d = .ok { a with paths := insertPath a.paths p })
    ∧ (∀ (a : StateAgent) (p d : String),
      a.telemetryUpdateOk (jsPathOf a p) d = false →
        UpdateState a p d = .error (.stateAddOrUpdateFailed (jsPathOf a p) d))
    ∧ (∀ (a : StateAgent) (p : String), p ∈ a.paths →
      a.telemetryDeleteOk (jsPathOf a p) = true →
        DeleteState a p
          = .ok { a with paths := a.paths.filter (fun q => !(q = p)) })
    ∧ (∀ (a : StateAgent) (p : String), p ∈ a.paths →
      a.telemetryDeleteOk (jsPathOf a p) = false →
        DeleteState a p = .error (.stateDeleteFailed (jsPathOf a p))) := by
  refine ⟨?_, ?_, ?_, ?_⟩
  · intro a p d h
    simp [UpdateState, h]
  · intro a p d h
    simp [UpdateState, h]
  · intro a p hm h
    simp [DeleteState, hm, h]
  · intro a p hm h
    simp [DeleteState, hm, h]

/-- C9 (witness): an update against a succeeding stub adds the path,
and a delete of a tracked path against a failing stub returns the
delete error. -/
theorem c9_state_mutate_witness :
    UpdateState (⟨("/g"), [], fun _ => true, fun _ _ => true⟩ : StateAgent)
      ("/a") ("d")
      = .ok { (⟨("/g"), [], fun _ => true, fun _ _ => true⟩ : StateAgent) with
          paths := insertPath [] ("/a") }
    ∧ DeleteState (⟨("/g"), [("/a")], fun _ => false, fun _ _ => true⟩
        : StateAgent) ("/a")
      = .error (.stateDeleteFailed
          (jsPathOf (⟨("/g"), [("/a")], fun _ => false, fun _ _ => true⟩
            : StateAgent) ("/a"))) :=
  ⟨c9_state_mutate_on_success.1 _ _ _ rfl,
    c9_state_mutate_on_success.2.2.2 _ _ (by decide) rfl⟩

/-! ## Claim theorems for agent construction and validation -/

theorem newAgentStep_fields (st : AgentModel × List BondErr) (o : AgentOption) :
    (newAgentStep st o).1.retryTimeout = st.1.retryTimeout
    ∧ (newAgentStep st o).1.paths = st.1.paths
    ∧ (newAgentStep st o).1.notificationsInit = st.1.notificationsInit := by
  cases o with
  | withLogger => exact ⟨rfl, rfl, rfl⟩
  | withContext c1 c2 =>
    cases c1 <;> cases c2 <;> exact ⟨rfl, rfl, rfl⟩
  | withAppRootPath p => exact ⟨rfl, rfl, rfl⟩
  | withStreamConfig => exact ⟨rfl, rfl, rfl⟩
  | withKeepAlive i t =>
    by_cases e : (i = 0 ∧ t = 0) <;>
      simp [newAgentStep, applyOption, e]
  | withConfigAcknowledge => exact ⟨rfl, rfl, rfl⟩
  | withAutoUpdateConfigState => exact ⟨rfl, rfl, rfl⟩
  | withCaching => exact ⟨rfl, rfl, rfl⟩

theorem foldOpts_fields (opts : List AgentOption) :
    ∀ st : AgentModel × List BondErr,
      (opts.foldl newAgentStep st).1.retryTimeout = st.1.retryTimeout
      ∧ (opts.foldl newAgentStep st).1.paths = st.1.paths
      ∧ (opts.foldl newAgentStep st).1.notificationsInit
          = st.1.notificationsInit := by
  induction opts with
  | nil => intro st; exact ⟨rfl, rfl, rfl⟩
  | cons o os ih =>
    intro st
    rw [List.foldl_cons]
    obtain ⟨e1, e2, e3⟩ := ih (newAgentStep st o)
    obtain ⟨f1, f2, f3⟩ := newAgentStep_fields st o
    exact ⟨e1.trans f1, e2.trans f2, e3.trans f3⟩

/-- C7 (counterexample): constructing with configAck and autoCfgState
but without streamConfig yields only the ack-without-stream error; the
ack-with-auto-config-state error is absent because validateOptions
checks the two conditions in one if/else-if chain. -/
theorem c7_both_errors_counterexample :
    NewAgent ("app") [.withConfigAcknowledge, .withAutoUpdateConfigState]
      = (none, [BondErr.ackCfgAndNotStreamCfg])
    ∧ BondErr.ackCfgAndAutoCfgState
        ∉ (NewAgent ("app")
            [.withConfigAcknowledge, .withAutoUpdateConfigState]).2 := by
  refine ⟨by decide, by decide⟩

/-- C7 (amended): an agent built with configAck and without
streamConfig fails with exactly the ack-without-stream error, and
adding autoCfgState still yields exactly that one error; in general
the ack-without-stream error is reported precisely when configAck is
set without streamConfig, and the ack-with-auto-config-state error
precisely when configAck and autoCfgState are set together with
streamConfig (the else-if branch). -/
theorem c7_ack_validation_amended :
    (∀ name : String, NewAgent name [.withConfigAcknowledge]
        = (none, [BondErr.ackCfgAndNotStreamCfg]))
    ∧ (∀ name : String,
        NewAgent name [.withConfigAcknowledge, .withAutoUpdateConfigState]
          = (none, [BondErr.ackCfgAndNotStreamCfg]))
    ∧ (∀ a : AgentModel,
        BondErr.ackCfgAndNotStreamCfg ∈ validateOptions a
          ↔ a.configAck = true ∧ a.streamConfig = false)
    ∧ (∀ a : AgentModel,
        BondErr.ackCfgAndAutoCfgState ∈ validateOptions a
          ↔ a.configAck = true ∧ a.autoCfgState = true
            ∧ a.streamConfig = true) := by
  refine ⟨fun name => rfl, fun name => rfl, ?_, ?_⟩
  · intro a
    cases hca : a.configAck <;> cases hsc : a.streamConfig <;>
      simp [validateOptions, hca, hsc]
  · intro a
    cases hca : a.configAck <;> cases hsc : a.streamConfig <;>
      cases hac : a.autoCfgState <;> simp [validateOptions, hca, hsc, hac]

/-- C10: NewAgent returns a nil agent exactly when the error list is
nonempty, and a returned agent always carries the default retry
timeout, an empty tracked path set and freshly initialised
notification channels, together with an empty error list. -/
theorem c10_newAgent_nil_iff (name : String) (opts : List AgentOption) :
    ((NewAgent name opts).1 = none ↔ (NewAgent name opts).2 ≠ [])
    ∧ (∀ a : AgentModel, (NewAgent name opts).1 = some a →
        (NewAgent name opts).2 = []
        ∧ a.retryTimeout = defaultRetryTimeout
        ∧ a.paths = []
        ∧ a.notificationsInit = true) := by
  obtain ⟨f1, f2, f3⟩ := foldOpts_fields opts (initialAgent name, [])
  have hN : NewAgent name opts
      = (if ((opts.foldl newAgentStep (initialAgent name, [])).2
            ++ validateOptions
                (opts.foldl newAgentStep (initialAgent name, [])).1) = []
         then (some (opts.foldl newAgentStep (initialAgent name, [])).1,
           (opts.foldl newAgentStep (initialAgent name, [])).2
             ++ validateOptions
                 (opts.foldl newAgentStep (initialAgent name, [])).1)
         else (none,
           (opts.foldl newAgentStep (initialAgent name, [])).2
             ++ validateOptions
                 (opts.foldl newAgentStep (initialAgent name, [])).1)) := rfl
  by_cases he : ((opts.foldl newAgentStep (initialAgent name, [])).2
      ++ validateOptions (opts.foldl newAgentStep (initialAgent name, [])).1)
      = []
  · rw [hN, if_pos he]
    constructor
    · simp [he]
    · intro a ha
      simp only [Option.some.injEq] at ha
      subst ha
      exact ⟨he, f1, f2, f3⟩
  · rw [hN, if_neg he]
    constructor
    · simp [he]
    · intro a ha
      simp at ha

/-- C10 (witness): constructing with no options yields the initial
agent and no errors. -/
theorem c10_newAgent_witness :
    (NewAgent ("app") []).2 = []
    ∧ (initialAgent ("app")).retryTimeout = defaultRetryTimeout
    ∧ (initialAgent ("app")).paths = []
    ∧ (initialAgent ("app")).notificationsInit = true :=
  (c10_newAgent_nil_iff ("app") []).2 (initialAgent ("app")) rfl

/-! ## Claim theorems for the keepalive loop -/

theorem keepAliveRun_spec (thr : Int) (hthr : 1 ≤ thr) :
    ∀ (rs : List KeepAliveResp) (c : Int), c < thr →
      keepAliveRun thr c rs ≤ rs.length
      ∧ (∀ k : Nat, k < keepAliveRun thr c rs →
          (rs.take k).foldl keepAliveCounterStep c < thr)
      ∧ (keepAliveRun thr c rs < rs.length →
          (rs.take (keepAliveRun thr c rs)).foldl keepAliveCounterStep c = thr)
      ∧ (keepAliveRun thr c rs = rs.length
          ∨ (rs.take (keepAliveRun thr c rs)).foldl keepAliveCounterStep c
              = thr) := by
  intro rs
  induction rs with
  | nil =>
    intro c hc
    refine ⟨by simp [keepAliveRun], ?_, ?_, Or.inl rfl⟩
    · intro k hk
      simp [keepAliveRun] at hk
    · intro hlt
      simp [keepAliveRun] at hlt
  | cons r rest ih =>
    intro c hc
    have htake : ∀ (m : Nat), List.take (1 + m) (r :: rest)
        = r :: List.take m rest := by
      intro m
      rw [Nat.add_comm]
      simp [List.take_succ_cons]
    cases r with
    | rpcError =>
      obtain ⟨i1, i2, i3, i4⟩ := ih c hc
      have hrun : keepAliveRun thr c (KeepAliveResp.rpcError :: rest)
          = 1 + keepAliveRun thr c rest := rfl
      refine ⟨?_, ?_, ?_, ?_⟩
      · rw [hrun]
        simp only [List.length_cons]
        omega
      · intro k hk
        rcases k with _ | kk
        · simpa using hc
        · rw [hrun] at hk
          have hk2 : kk < keepAliveRun thr c rest := by omega
          have := i2 kk hk2
          simpa [List.take_succ_cons, keepAliveCounterStep] using this
      · intro hlt
        rw [hrun] at hlt ⊢
        simp only [List.length_cons] at hlt
        rw [htake]
        have := i3 (by omega)
        simpa [keepAliveCounterStep] using this
      · rw [hrun]
        rcases i4 with hlen | hthr2
        · left
          simp only [List.length_cons, hlen]
          omega
        · right
          rw [htake]
          simpa [keepAliveCounterStep] using hthr2
    | success =>
      have h0 : (0 : Int) < thr := by omega
      obtain ⟨i1, i2, i3, i4⟩ := ih 0 h0
      have hrun : keepAliveRun thr c (KeepAliveResp.success :: rest)
          = 1 + keepAliveRun thr 0 rest := rfl
      refine ⟨?_, ?_, ?_, ?_⟩
      · rw [hrun]
        simp only [List.length_cons]
        omega
      · intro k hk
        rcases k with _ | kk
        · simpa using hc
        · rw [hrun] at hk
          have hk2 : kk < keepAliveRun thr 0 rest := by omega
          have := i2 kk hk2
          simpa [List.take_succ_cons, keepAliveCounterStep] using this
      · intro hlt
        rw [hrun] at hlt ⊢
        simp only [List.length_cons] at hlt
        rw [htake]
        have := i3 (by omega)
        simpa [keepAliveCounterStep] using this
      · rw [hrun]
        rcases i4 with hlen | hthr2
        · left
          simp only [List.length_cons, hlen]
          omega
        · right
          rw [htake]
          simpa [keepAliveCounterStep] using hthr2
    | failed =>
      have hrun : keepAliveRun thr c (KeepAliveResp.failed :: rest)
          = if thr ≤ c + 1 then 1 else 1 + keepAliveRun thr (c + 1) rest := rfl
      by_cases hhit : thr ≤ c + 1
      · have hstop : keepAliveRun thr c (KeepAliveResp.failed :: rest) = 1 := by
          rw [hrun, if_pos hhit]
        have hcnt : ((KeepAliveResp.failed :: rest).take 1).foldl
            keepAliveCounterStep c = c + 1 := by
          simp [List.take_succ_cons, keepAliveCounterStep]
        refine ⟨?_, ?_, ?_, ?_⟩
        · rw [hstop]
          simp
        · intro k hk
          rw [hstop] at hk
          rcases k with _ | kk
          · simpa using hc
          · omega
        · intro _
          rw [hstop, hcnt]
          omega
        · right
          rw [hstop, hcnt]
          omega
      · have hcont : keepAliveRun thr c (KeepAliveResp.failed :: rest)
            = 1 + keepAliveRun thr (c + 1) rest := by
          rw [hrun, if_neg hhit]
        obtain ⟨i1, i2, i3, i4⟩ := ih (c + 1) (by omega)
        refine ⟨?_, ?_, ?_, ?_⟩
        · rw [hcont]
          simp only [List.length_cons]
          omega
        · intro k hk
          rcases k with _ | kk
          · simpa using hc
          · rw [hcont] at hk
            have hk2 : kk < keepAliveRun thr (c + 1) rest := by omega
            have := i2 kk hk2
            simpa [List.take_succ_cons, keepAliveCounterStep] using this
        · intro hlt
          rw [hcont] at hlt ⊢
          simp only [List.length_cons] at hlt
          rw [htake]
          have := i3 (by omega)
          simpa [keepAliveCounterStep] using this
        · rw [hcont]
          rcases i4 with hlen | hthr2
          · left
            simp only [List.length_cons, hlen]
            omega
          · right
            rw [htake]
            simpa [keepAliveCounterStep] using hthr2

/-- C8: with a positive threshold, the keepalive loop sends at most
one probe per listed response; the failure counter, which a failed
status increments, a successful status resets to zero and a transport
error leaves untouched, stays below the threshold strictly before
every sent probe; if the loop stops before exhausting the responses it
does so exactly when the counter reaches the threshold, and a loop
that never reaches the threshold processes every response; the
remaining responses of a stopped run are never probed. -/
theorem c8_keepalive_threshold (thr : Int) (hthr : 1 ≤ thr)
    (rs : List KeepAliveResp) :
    keepAliveRun thr 0 rs ≤ rs.length
    ∧ (∀ k : Nat, k < keepAliveRun thr 0 rs → kaCounter (rs.take k) < thr)
    ∧ (keepAliveRun thr 0 rs < rs.length →
        kaCounter (rs.take (keepAliveRun thr 0 rs)) = thr)
    ∧ (keepAliveRun thr 0 rs = rs.length
        ∨ kaCounter (rs.take (keepAliveRun thr 0 rs)) = thr) :=
  keepAliveRun_spec thr hthr rs 0 (by omega)

/-- C8 (witness): a run with threshold two over the responses failed,
success, failed, failed, transport-error stops after the fourth
probe. -/
theorem c8_keepalive_witness :
    (1 : Int) ≤ 2
    ∧ keepAliveRun 2 0 [KeepAliveResp.failed, KeepAliveResp.success,
        KeepAliveResp.failed, KeepAliveResp.failed,
        KeepAliveResp.rpcError] ≤ 5 :=
  ⟨by decide, (c8_keepalive_threshold 2 (by decide)
    [KeepAliveResp.failed, KeepAliveResp.success, KeepAliveResp.failed,
      KeepAliveResp.failed, KeepAliveResp.rpcError]).1⟩
